import Mathlib

/-!
Verification of the porepy forward-mode AD core and DOF block registry.

The development shallowly embeds the Python sources:
* `src/porepy/numerics/ad/forward_mode.py` (`initAdArrays`, `Ad_array`),
* `src/porepy/numerics/ad/functions.py` (`maximum`),
* `src/porepy/numerics/mixed_dim/dof_manager.py` (`DofManager`).

Numeric vectors (numpy 1-d arrays) are lists of rationals; matrices (dense or
sparse scipy matrices, viewed through their mathematical content) are lists of
rows.  Fallible Python code is modelled with `Except PyErr`.
-/

namespace PorePy

/-- Errors surfaced by the modelled Python code. -/
inductive PyErr where
  | keyError (msg : String)
  | valueError (msg : String)
  | indexError
  | unboundLocalError
  deriving DecidableEq, Repr

/-- A numpy 1-d array of numbers. -/
abbrev Vec := List ℚ

/-- A matrix (dense numpy or sparse scipy), stored as its list of rows. -/
abbrev Mat := List (List ℚ)

/-- Entry `(r, c)` of a matrix, `0` outside the stored rows/columns. -/
def matEntry (M : Mat) (r c : ℕ) : ℚ := (M.getD r []).getD c 0

/-- Zero matrix of shape `n × m` (`sps.csc_matrix((n, m))`). -/
def zeroMat (n m : ℕ) : Mat := List.replicate n (List.replicate m 0)

/-- Identity matrix of size `n` (`sps.diags(np.ones(n))`). -/
def eyeMat (n : ℕ) : Mat :=
  (List.range n).map (fun r => (List.range n).map (fun c => if r = c then 1 else 0))

/-- Number of columns of a matrix, read off the first row. -/
def matWidth (M : Mat) : ℕ := (M.headD []).length

/-- Horizontal concatenation of matrices with `n` rows each (`sps.bmat([Ms])`). -/
def hstack (n : ℕ) (Ms : List Mat) : Mat :=
  (List.range n).map (fun r => (Ms.map (fun M => M.getD r [])).flatten)

/-- Dot product of two vectors (summing over the common indices). -/
def dotProd (u v : Vec) : ℚ :=
  ∑ i ∈ Finset.range (min u.length v.length), u.getD i 0 * v.getD i 0

/-- Column `c` of a matrix. -/
def colOf (M : Mat) (c : ℕ) : Vec := M.map (fun row => row.getD c 0)

/-- Matrix product. -/
def matMul (A B : Mat) : Mat :=
  A.map (fun row => (List.range (matWidth B)).map (fun c => dotProd row (colOf B c)))

/-- Matrix sum (entrywise, over the common shape). -/
def matAdd (A B : Mat) : Mat := List.zipWith (List.zipWith (· + ·)) A B

/-- Diagonal matrix built from a vector (`sps.diags(a)`). -/
def diagMat (v : Vec) : Mat :=
  (List.range v.length).map
    (fun r => (List.range v.length).map (fun c => if r = c then v.getD r 0 else 0))

/-- Entrywise negation of a matrix. -/
def matNeg (M : Mat) : Mat := M.map (fun row => row.map (fun x => -x))

/-- A matrix has `n` rows, each of length `m`. -/
def HasShape (M : Mat) (n m : ℕ) : Prop :=
  M.length = n ∧ ∀ row ∈ M, row.length = m

/-- Forward-mode AD pair from `forward_mode.py`: a value vector together with
its Jacobian with respect to the global unknown vector. -/
structure Ad_array where
  val : Vec
  jac : Mat
  deriving DecidableEq, Repr

/-- Fallback element for list lookups into lists of `Ad_array`. -/
def adDefault : Ad_array := ⟨[], []⟩

/-- Model of `initAdArrays` applied to a list of numeric vectors: the `i`-th
output pairs the `i`-th input with a Jacobian assembled by horizontally
stacking zero blocks `n_i × m_j`, with block `i` replaced by the identity. -/
def initAdArrays (vs : List Vec) : List Ad_array :=
  let num_val := vs.map List.length
  vs.enum.map (fun iv =>
    let n := iv.2.length
    let jacBlocks := (num_val.map (fun m => zeroMat n m)).set iv.1 (eyeMat n)
    ⟨iv.2, hstack n jacBlocks⟩)

/-- Model of `initAdArrays` applied to a single (non-list) numeric vector:
the Jacobian is the identity of the vector's size. -/
def initAdArraySingle (v : Vec) : Ad_array :=
  ⟨v, eyeMat v.length⟩

/-- Model of `Ad_array.__mul__` for two `Ad_array` operands:
`val = self.val * other.val` and
`jac = diags(other.val) * self.jac + diags(self.val) * other.jac`
(via `diagvec_mul_jac`). -/
def adMul (a b : Ad_array) : Ad_array :=
  ⟨List.zipWith (· * ·) a.val b.val,
   matAdd (matMul (diagMat b.val) a.jac) (matMul (diagMat a.val) b.jac)⟩

/-- Model of `Ad_array.__pow__` with an integer scalar exponent:
`val = self.val ** float(other)` and
`jac = diagvec_mul_jac(other * self.val ** float(other - 1))`. -/
def adPowInt (a : Ad_array) (e : ℤ) : Ad_array :=
  ⟨a.val.map (fun x => x ^ e),
   matMul (diagMat (a.val.map (fun x => (e : ℚ) * x ^ (e - 1)))) a.jac⟩

/-- Second operand of `maximum` in `functions.py`: an `Ad_array` or a plain
numpy array (a constant, carrying no Jacobian). -/
inductive AdOrArray where
  | ad (a : Ad_array)
  | arr (v : Vec)

/-- Model of `maximum(var_0, var_1)` from `functions.py` for `var_0` an
`Ad_array` and `var_1` an `Ad_array` or plain array of the same length.
A zero Jacobian of the shape of `var_0.jac` stands in for a constant operand;
`inds = vals[1] >= vals[0]`; `max_val` starts from `vals[0]` and entries at
`inds` are overwritten from `vals[1]`; `max_jac` starts from a copy of
`jacs[0]` and rows at `inds` are overwritten by the corresponding rows of
`jacs[1]`.  Modelled from the spec: the sparse row replacement
(`pp.matrix_operations.slice_mat` / `merge_matrices`, not part of the sources
at hand) replaces exactly the rows listed in `inds`, as the dense branch
`max_jac[inds] = jacs[1][inds]` does. -/
def maximum (var0 : Ad_array) (var1 : AdOrArray) : Ad_array :=
  let zero_jac := zeroMat var0.jac.length (matWidth var0.jac)
  let vals0 := var0.val
  let jac0 := var0.jac
  let vals1 := match var1 with
    | .ad b => b.val
    | .arr v => v
  let jac1 := match var1 with
    | .ad b => b.jac
    | .arr _ => zero_jac
  let max_val := List.zipWith (fun x y => if x ≤ y then y else x) vals0 vals1
  let max_jac := (List.zipWith (fun xy rr => (xy, rr)) (List.zipWith (fun x y => (x, y)) vals0 vals1)
      (List.zipWith (fun r0 r1 => (r0, r1)) jac0 jac1)).map
    (fun p => if p.1.1 ≤ p.1.2 then p.2.2 else p.2.1)
  ⟨max_val, max_jac⟩

/-! ## DOF block registry (`dof_manager.py`) -/

/-- A grid-like entity: a subdomain grid (`pp.Grid`) or a coupling interface
(`pp.MortarGrid`).  Grids are map keys by object identity; the identity is an
abstract number, and `isMortar` records which `isinstance` check matches. -/
structure GridLike where
  id : ℕ
  isMortar : Bool
  deriving DecidableEq, Repr

/-- Key of `DofManager.block_dof`: a (grid, variable-name) pair. -/
abbrev BKey := GridLike × String

/-- Post-construction state of a `DofManager`: the entries of `block_dof`
(keys, listed in block-index order) paired with the entries of `full_dof`
(the dof count of each block). -/
structure Registry where
  blocks : List (BKey × ℕ)

/-- Keys of `block_dof`, in block-index order. -/
def keysOf (R : Registry) : List BKey := R.blocks.map Prod.fst

/-- The `full_dof` array: number of dofs per block, in block-index order. -/
def full_dof (R : Registry) : List ℕ := R.blocks.map Prod.snd

/-- Model of `DofManager.num_dofs`: `np.sum(self.full_dof)`. -/
def num_dofs (R : Registry) : ℕ := (full_dof R).sum

/-- Running sums `a, a + w₀, a + w₀ + w₁, …` of a list of widths. -/
def prefixSums : ℕ → List ℕ → List ℕ
  | a, [] => [a]
  | a, w :: ws => a :: prefixSums (a + w) ws

/-- The `dof_start` array `np.hstack((0, np.cumsum(self.full_dof)))`. -/
def dofStart (R : Registry) : List ℕ := prefixSums 0 (full_dof R)

/-- Block index of a registered key (`self.block_dof[(grid, variable)]`),
the position of the key in insertion order. -/
def blockIndex (R : Registry) (k : BKey) : ℕ := (keysOf R).findIdx (fun x => x = k)

/-- Start of the global index range of a registered key. -/
def blockStart (R : Registry) (k : BKey) : ℕ := (dofStart R).getD (blockIndex R k) 0

/-- End (exclusive) of the global index range of a registered key. -/
def blockEnd (R : Registry) (k : BKey) : ℕ := (dofStart R).getD (blockIndex R k + 1) 0

/-- Model of `DofManager.grid_and_variable_to_dofs`: the contiguous global
indices `np.arange(dof_start[block_ind], dof_start[block_ind + 1])` of one
block; a `KeyError` if the pair was never registered. -/
def grid_and_variable_to_dofs (R : Registry) (g : GridLike) (v : String) :
    Except PyErr (List ℕ) :=
  if (g, v) ∈ keysOf R then
    .ok (List.range' (blockStart R (g, v)) (blockEnd R (g, v) - blockStart R (g, v)))
  else
    .error (.keyError "grid and variable combination not registered")

/-- The `pp.STATE` dictionary of one grid: plain per-variable values, plus the
optional nested `pp.ITERATE` dictionary. -/
structure StateDict where
  vals : String → Option Vec
  iterate : Option (String → Option Vec)

/-- Freshly created empty `pp.STATE` dictionary. -/
def emptyStateDict : StateDict := ⟨fun _ => none, none⟩

/-- The data dictionary attached to one grid (only the `pp.STATE` entry is
relevant to the modelled code; `none` models a dictionary without it). -/
structure GridData where
  state : Option StateDict

/-- The per-grid storage of the mixed-dimensional grid:
`mdg.subdomain_data` / `mdg.interface_data` as one lookup. -/
abbrev Store := GridLike → GridData

/-- Stored `data[pp.STATE][var]` slot of a grid, if present. -/
def stateSlot (store : Store) (g : GridLike) (v : String) : Option Vec :=
  (store g).state.bind (fun sd => sd.vals v)

/-- Stored `data[pp.STATE][pp.ITERATE][var]` slot of a grid, if present. -/
def iterSlot (store : Store) (g : GridLike) (v : String) : Option Vec :=
  (store g).state.bind (fun sd => sd.iterate.bind (fun it => it v))

/-- Default grid selection `list(set([key[0] for key in self.block_dof]))`
(the Python set order is unspecified; this model fixes one enumeration). -/
def defaultGrids (R : Registry) : List GridLike := ((keysOf R).map Prod.fst).dedup

/-- Default variable selection `list(set([key[1] for key in self.block_dof]))`. -/
def defaultVars (R : Registry) : List String := ((keysOf R).map Prod.snd).dedup

/-- Fancy indexing `values[np.arange(start, start + w)]`: an `IndexError` when
an index reaches past the end of `values`. -/
def npFancyIndex (values : Vec) (start w : ℕ) : Except PyErr Vec :=
  if start + w ≤ values.length ∨ w = 0 then .ok ((values.drop start).take w)
  else .error .indexError

/-- Elementwise numpy addition with singleton broadcasting. -/
def npAdd (a b : Vec) : Except PyErr Vec :=
  if a.length = b.length then .ok (List.zipWith (· + ·) a b)
  else if a.length = 1 then .ok (b.map (fun x => a.getD 0 0 + x))
  else if b.length = 1 then .ok (a.map (fun x => x + b.getD 0 0))
  else .error (.valueError "operands could not be broadcast together")

/-- Contents of a list after overwriting the slice starting at `start` with
`arr` (the effect of `values[np.arange(start, start + len(arr))] = arr`). -/
def writeSlice (values : Vec) (start : ℕ) (arr : Vec) : Vec :=
  values.take start ++ arr ++ values.drop (start + arr.length)

/-- Slice assignment `values[np.arange(start, start + w)] = arr`: requires the
indices in range and `arr` of matching length (or a broadcastable singleton). -/
def npSetSlice (values : Vec) (start w : ℕ) (arr : Vec) : Except PyErr Vec :=
  if start + w ≤ values.length ∨ w = 0 then
    if arr.length = w then .ok (writeSlice values start arr)
    else if arr.length = 1 then
      .ok (writeSlice values start (List.replicate w (arr.getD 0 0)))
    else .error (.valueError "shape mismatch in assignment")
  else .error .indexError

/-- The block slice `values[dof_ind]` of a global vector for a registered
key (the contents extracted by `distribute_variable`). -/
def sliceOf (R : Registry) (values : Vec) (k : BKey) : Vec :=
  (values.drop (blockStart R k)).take (blockEnd R k - blockStart R k)

/-- Store after the body of the `distribute_variable` loop wrote vector `w`
into the variable slot of grid `g` (`data[pp.STATE][var] = ...` or
`data[pp.STATE][pp.ITERATE][var] = ...`), creating the `pp.STATE` dictionary
(and, for `to_iterate`, the `pp.ITERATE` dictionary) when absent. -/
def putSlot (store : Store) (g : GridLike) (v : String) (to_iterate : Bool)
    (w : Vec) : Store :=
  fun g1 =>
    if g1 = g then
      let sd := (store g).state.getD emptyStateDict
      if to_iterate then
        let it := sd.iterate.getD (fun _ => none)
        ⟨some ⟨sd.vals, some (fun x => if x = v then some w else it x)⟩⟩
      else
        ⟨some ⟨fun x => if x = v then some w else sd.vals x, sd.iterate⟩⟩
    else store g1

/-- Loop body of `distribute_variable` for one selected (grid, variable)
pair: skip unregistered pairs, slice the global vector, and write the slice
(overwriting, or adding to the stored value when `additive`). -/
def distStep (R : Registry) (values : Vec) (additive to_iterate : Bool)
    (store : Store) (g : GridLike) (v : String) : Except PyErr Store :=
  if (g, v) ∈ keysOf R then
    match npFancyIndex values (blockStart R (g, v))
        (blockEnd R (g, v) - blockStart R (g, v)) with
    | .error e => .error e
    | .ok vals =>
      if additive then
        let old := if to_iterate then iterSlot store g v else stateSlot store g v
        match old with
        | none => .error (.keyError "no stored value to add to")
        | some prev =>
          match npAdd prev vals with
          | .error e => .error e
          | .ok summed => .ok (putSlot store g v to_iterate summed)
      else
        .ok (putSlot store g v to_iterate vals)
  else .ok store

/-- Loop of `distribute_variable` over the selected (grid, variable) pairs. -/
def distLoop (R : Registry) (values : Vec) (additive to_iterate : Bool) :
    List BKey → Store → Except PyErr Store
  | [], store => .ok store
  | (g, v) :: rest, store =>
    match distStep R values additive to_iterate store g v with
    | .error e => .error e
    | .ok store1 => distLoop R values additive to_iterate rest store1

/-- Model of `DofManager.distribute_variable`: write each selected registered
block's slice of the global vector into that grid's named storage, iterating
over `itertools.product(grids, variables)` with the default selections taken
from `block_dof`. -/
def distribute_variable (R : Registry) (store : Store) (values : Vec)
    (grids : Option (List GridLike)) (vars1 : Option (List String))
    (additive to_iterate : Bool) : Except PyErr Store :=
  let gs := grids.getD (defaultGrids R)
  let vs := vars1.getD (defaultVars R)
  distLoop R values additive to_iterate (gs ×ˢ vs) store

/-- Loop of `assemble_variable` over the selected pairs, scattering stored
per-grid values into the zero-initialised global vector. -/
def asmLoop (R : Registry) (store : Store) (from_iterate : Bool) :
    List BKey → Vec → Except PyErr Vec
  | [], values => .ok values
  | (g, v) :: rest, values =>
    if (g, v) ∈ keysOf R then
      let slot := if from_iterate then iterSlot store g v else stateSlot store g v
      match slot with
      | none => .error (.keyError "no stored value for variable")
      | some arr =>
        match npSetSlice values (blockStart R (g, v))
            (blockEnd R (g, v) - blockStart R (g, v)) arr with
        | .error e => .error e
        | .ok values1 => asmLoop R store from_iterate rest values1
    else asmLoop R store from_iterate rest values

/-- Model of `DofManager.assemble_variable`: gather stored per-grid values
into a vector of `num_dofs` zeros, leaving unselected blocks at zero. -/
def assemble_variable (R : Registry) (store : Store)
    (grids : Option (List GridLike)) (vars1 : Option (List String))
    (from_iterate : Bool) : Except PyErr Vec :=
  let gs := grids.getD (defaultGrids R)
  let vs := vars1.getD (defaultVars R)
  asmLoop R store from_iterate (gs ×ˢ vs) (List.replicate (num_dofs R) 0)

/-- Loop of `get_variable_values`, as written in the source:
`for grid, name in self.block_dof.items()` unpacks each dictionary item, so
`grid` is bound to the `(grid, variable)` key tuple and `name` to the block
index.  A tuple satisfies neither `isinstance(grid, pp.Grid)` nor
`isinstance(grid, pp.MortarGrid)`, so the local `data` keeps its previous
binding (`none` models the unbound state).  Reading `data[pp.STATE]` while
unbound raises `UnboundLocalError`, which the `except KeyError` clause does
not catch; with a bound `data`, the integer `name` is never a key of the
string-keyed dictionary, so the lookup raises the re-raised `KeyError`. -/
def gvvLoop (dataVar : Option GridData) :
    List (BKey × ℕ) → Except PyErr (List Vec)
  | [] => .ok []
  | _ :: _ =>
    match dataVar with
    | none => .error .unboundLocalError
    | some _ => .error (.keyError "No values stored for variable")

/-- Model of `DofManager.get_variable_values` (with `variables=None`): loop
over the items of `block_dof` collecting stored values, then concatenate. -/
def get_variable_values (R : Registry) (_store : Store) (_from_iterate : Bool) :
    Except PyErr Vec :=
  match gvvLoop none R.blocks with
  | .error e => .error e
  | .ok vals => .ok vals.flatten

/-- Model of `DofManager.dof_to_grid_and_variable`: guard against indices at
or above the system size and against negative indices, then locate the block
by `np.argmax(dof_start > ind) - 1` and invert `block_dof`. -/
def dof_to_grid_and_variable (R : Registry) (ind : ℤ) : Except PyErr BKey :=
  let ds := dofStart R
  if ((ds.getLastD 0 : ℕ) : ℤ) ≤ ind then
    .error (.valueError "Index is larger than system size")
  else if ind < 0 then
    .error (.valueError "Dof indices should be non-negative")
  else
    let j := ds.findIdx (fun s : ℕ => decide (ind < (s : ℤ)))
    match (keysOf R).get? (j - 1) with
    | some k => .ok k
    | none => .error (.keyError "inverse block lookup failed")

/-! ## Heap model of `Ad_array` object semantics

The aliasing and mutation behaviour of `forward_mode.py` is modelled with an
explicit heap: numpy arrays and (sparse) matrices are heap cells addressed by
numeric references, and every numpy/scipy arithmetic operation allocates a
fresh cell for its result. -/

/-- Heap of numpy-array and matrix objects; a reference is an index into the
respective list, and allocation appends. -/
structure Heap where
  vecs : List Vec
  mats : List Mat

/-- Contents of the vector cell behind reference `r`. -/
def readVec (h : Heap) (r : ℕ) : Vec := h.vecs.getD r []

/-- Contents of the matrix cell behind reference `r`. -/
def readMat (h : Heap) (r : ℕ) : Mat := h.mats.getD r []

/-- Allocate a fresh vector cell; returns the new heap and the reference. -/
def allocVec (h : Heap) (v : Vec) : Heap × ℕ :=
  (⟨h.vecs ++ [v], h.mats⟩, h.vecs.length)

/-- Allocate a fresh matrix cell; returns the new heap and the reference. -/
def allocMat (h : Heap) (M : Mat) : Heap × ℕ :=
  (⟨h.vecs, h.mats ++ [M]⟩, h.mats.length)

/-- Overwrite the matrix cell behind reference `r` (in-place mutation of a
matrix object). -/
def writeMat (h : Heap) (r : ℕ) (M : Mat) : Heap :=
  ⟨h.vecs, h.mats.set r M⟩

/-- An `Ad_array` object in its standard representation: a reference to the
`val` array and a reference to the single Jacobian matrix. -/
structure AdRef where
  val : ℕ
  jac : ℕ
  deriving DecidableEq, Repr

/-- An `Ad_array` object in the legacy vector-field representation: `jac` is a
numpy object array holding references to per-component matrices. -/
structure AdRefArr where
  val : ℕ
  jac : List ℕ
  deriving DecidableEq, Repr

/-- References of an `AdRef` are allocated in the heap. -/
abbrev ValidRef (h : Heap) (a : AdRef) : Prop :=
  a.val < h.vecs.length ∧ a.jac < h.mats.length

/-- Model of `Ad_array.copy` in the standard representation: `self.val.copy()`
and `self.jac.copy()` both exist and allocate independent deep copies. -/
def copyH (h : Heap) (a : AdRef) : Heap × AdRef :=
  let hv := allocVec h (readVec h a.val)
  let hm := allocMat hv.1 (readMat hv.1 a.jac)
  (hm.1, ⟨hv.2, hm.2⟩)

/-- Model of `Ad_array.copy` in the legacy representation: `self.jac.copy()`
is `numpy.ndarray.copy()` on an object array, which copies the array of
references shallowly — the component matrices themselves are not copied. -/
def copyArrH (h : Heap) (a : AdRefArr) : Heap × AdRefArr :=
  let hv := allocVec h (readVec h a.val)
  (hv.1, ⟨hv.2, a.jac⟩)

/-- Model of `Ad_array.__add__` for two `Ad_array` operands: `self.val +
b.val` and `self.jac + b.jac` each allocate a fresh result. -/
def addH (h : Heap) (a b : AdRef) : Heap × AdRef :=
  let hv := allocVec h (List.zipWith (· + ·) (readVec h a.val) (readVec h b.val))
  let hm := allocMat hv.1 (matAdd (readMat hv.1 a.jac) (readMat hv.1 b.jac))
  (hm.1, ⟨hv.2, hm.2⟩)

/-- Model of `Ad_array.__neg__`: `b = self.copy()`, then `b.val = -b.val` and
`b.jac = -b.jac` rebind the copy's attributes to freshly allocated negations. -/
def negH (h : Heap) (a : AdRef) : Heap × AdRef :=
  let hb := copyH h a
  let hv := allocVec hb.1 ((readVec hb.1 hb.2.val).map (fun x => -x))
  let hm := allocMat hv.1 (matNeg (readMat hv.1 hb.2.jac))
  (hm.1, ⟨hv.2, hm.2⟩)

/-- Model of `Ad_array.__sub__` for two `Ad_array` operands: `b =
_cast(other).copy()`, negate the copy's attributes, then `self + b`. -/
def subH (h : Heap) (a b : AdRef) : Heap × AdRef :=
  let hb := copyH h b
  let hv := allocVec hb.1 ((readVec hb.1 hb.2.val).map (fun x => -x))
  let hm := allocMat hv.1 (matNeg (readMat hv.1 hb.2.jac))
  addH hm.1 a ⟨hv.2, hm.2⟩

/-- Model of `Ad_array.__mul__` for two `Ad_array` operands: a fresh value
array `self.val * other.val` and a fresh Jacobian
`diags(other.val) * self.jac + diags(self.val) * other.jac`. -/
def mulH (h : Heap) (a b : AdRef) : Heap × AdRef :=
  let hv := allocVec h (List.zipWith (· * ·) (readVec h a.val) (readVec h b.val))
  let hm := allocMat hv.1
    (matAdd (matMul (diagMat (readVec hv.1 b.val)) (readMat hv.1 a.jac))
            (matMul (diagMat (readVec hv.1 a.val)) (readMat hv.1 b.jac)))
  (hm.1, ⟨hv.2, hm.2⟩)

/-- Model of `functions.abs` on an `Ad_array`: a fresh `np.abs(var.val)` and a
fresh `diags(sign(var.val)) * var.jac`. -/
def absH (h : Heap) (a : AdRef) : Heap × AdRef :=
  let hv := allocVec h ((readVec h a.val).map (fun x => |x|))
  let hm := allocMat hv.1
    (matMul (diagMat ((readVec hv.1 a.val).map (fun x => if 0 < x then 1 else if x < 0 then -1 else 0)))
            (readMat hv.1 a.jac))
  (hm.1, ⟨hv.2, hm.2⟩)

/-- Frame contract of a binary operation: both operands keep their former
value and Jacobian contents, and the result's storage is freshly allocated
(aliased with no operand reference). -/
def FrameOk2 (h : Heap) (a b : AdRef) (out : Heap × AdRef) : Prop :=
  readVec out.1 a.val = readVec h a.val ∧ readMat out.1 a.jac = readMat h a.jac ∧
  readVec out.1 b.val = readVec h b.val ∧ readMat out.1 b.jac = readMat h b.jac ∧
  out.2.val ≠ a.val ∧ out.2.val ≠ b.val ∧ out.2.jac ≠ a.jac ∧ out.2.jac ≠ b.jac

/-- Frame contract of a unary operation. -/
def FrameOk1 (h : Heap) (a : AdRef) (out : Heap × AdRef) : Prop :=
  readVec out.1 a.val = readVec h a.val ∧ readMat out.1 a.jac = readMat h a.jac ∧
  out.2.val ≠ a.val ∧ out.2.jac ≠ a.jac

/-- Total size of the global vector seeded from a list of variable blocks. -/
def totalSize (vs : List Vec) : ℕ := (vs.map List.length).sum

/-- Column offset of the `i`-th variable block in the global vector. -/
def blockOffset (vs : List Vec) (i : ℕ) : ℕ := ((vs.map List.length).take i).sum

/-! ## Helper lemmas -/

theorem getD_concat_self {α : Type} (l : List α) (x d : α) :
    (l ++ [x]).getD l.length d = x := by
  rw [List.getD_append_right _ _ _ _ le_rfl]
  simp

theorem readVec_addVecs (h : Heap) (L : List Vec) (r : ℕ) (hr : r < h.vecs.length) :
    readVec ⟨h.vecs ++ L, h.mats⟩ r = readVec h r := by
  simp only [readVec]
  exact List.getD_append _ _ _ _ hr

theorem readMat_addMats (h : Heap) (vs : List Vec) (L : List Mat) (r : ℕ)
    (hr : r < h.mats.length) :
    readMat ⟨vs, h.mats ++ L⟩ r = readMat h r := by
  simp only [readMat]
  exact List.getD_append _ _ _ _ hr

theorem frame_addH (h : Heap) (a b : AdRef) (ha : ValidRef h a) (hb : ValidRef h b) :
    FrameOk2 h a b (addH h a b) := by
  obtain ⟨ha1, ha2⟩ := ha
  obtain ⟨hb1, hb2⟩ := hb
  unfold FrameOk2 addH allocVec allocMat
  refine ⟨?_, ?_, ?_, ?_, ?_, ?_, ?_, ?_⟩
  · exact readVec_addVecs h [_] a.val ha1
  · exact readMat_addMats ⟨h.vecs ++ [_], h.mats⟩ _ [_] a.jac ha2
  · exact readVec_addVecs h [_] b.val hb1
  · exact readMat_addMats ⟨h.vecs ++ [_], h.mats⟩ _ [_] b.jac hb2
  · exact fun hc => absurd (hc ▸ ha1) (lt_irrefl _)
  · exact fun hc => absurd (hc ▸ hb1) (lt_irrefl _)
  · exact fun hc => absurd (hc ▸ ha2) (lt_irrefl _)
  · exact fun hc => absurd (hc ▸ hb2) (lt_irrefl _)

theorem frame_subH (h : Heap) (a b : AdRef) (ha : ValidRef h a) (hb : ValidRef h b) :
    FrameOk2 h a b (subH h a b) := by
  obtain ⟨ha1, ha2⟩ := ha
  obtain ⟨hb1, hb2⟩ := hb
  unfold FrameOk2 subH copyH addH allocVec allocMat readVec readMat
  simp only [List.append_assoc, List.singleton_append, List.length_append,
    List.length_cons, List.length_nil]
  refine ⟨?_, ?_, ?_, ?_, ?_, ?_, ?_, ?_⟩
  · rw [List.getD_append _ _ _ _ ha1]
  · rw [List.getD_append _ _ _ _ ha2]
  · rw [List.getD_append _ _ _ _ hb1]
  · rw [List.getD_append _ _ _ _ hb2]
  · omega
  · omega
  · omega
  · omega

theorem frame_mulH (h : Heap) (a b : AdRef) (ha : ValidRef h a) (hb : ValidRef h b) :
    FrameOk2 h a b (mulH h a b) := by
  obtain ⟨ha1, ha2⟩ := ha
  obtain ⟨hb1, hb2⟩ := hb
  unfold FrameOk2 mulH allocVec allocMat readVec readMat
  simp only [List.append_assoc, List.singleton_append, List.length_append,
    List.length_cons, List.length_nil]
  refine ⟨?_, ?_, ?_, ?_, ?_, ?_, ?_, ?_⟩
  · rw [List.getD_append _ _ _ _ ha1]
  · rw [List.getD_append _ _ _ _ ha2]
  · rw [List.getD_append _ _ _ _ hb1]
  · rw [List.getD_append _ _ _ _ hb2]
  · omega
  · omega
  · omega
  · omega

theorem frame_negH (h : Heap) (a : AdRef) (ha : ValidRef h a) :
    FrameOk1 h a (negH h a) := by
  obtain ⟨ha1, ha2⟩ := ha
  unfold FrameOk1 negH copyH allocVec allocMat readVec readMat
  simp only [List.append_assoc, List.singleton_append, List.length_append,
    List.length_cons, List.length_nil]
  refine ⟨?_, ?_, ?_, ?_⟩
  · rw [List.getD_append _ _ _ _ ha1]
  · rw [List.getD_append _ _ _ _ ha2]
  · omega
  · omega

theorem frame_absH (h : Heap) (a : AdRef) (ha : ValidRef h a) :
    FrameOk1 h a (absH h a) := by
  obtain ⟨ha1, ha2⟩ := ha
  unfold FrameOk1 absH allocVec allocMat readVec readMat
  simp only [List.append_assoc, List.singleton_append, List.length_append,
    List.length_cons, List.length_nil]
  refine ⟨?_, ?_, ?_, ?_⟩
  · rw [List.getD_append _ _ _ _ ha1]
  · rw [List.getD_append _ _ _ _ ha2]
  · omega
  · omega

theorem getD_map_range {β : Type} (f : ℕ → β) (d : β) (n i : ℕ) (h : i < n) :
    ((List.range n).map f).getD i d = f i := by
  rw [List.getD_eq_getElem _ _ (by simpa using h)]
  simp

theorem zipWith_getD (f : ℚ → ℚ → ℚ) (u w : Vec) (i : ℕ) (hu : i < u.length)
    (hw : i < w.length) (d : ℚ) :
    (List.zipWith f u w).getD i d = f (u.getD i d) (w.getD i d) := by
  rw [List.getD_eq_getElem _ _ (by simp [hu, hw]), List.getElem_zipWith,
    List.getD_eq_getElem _ _ hu, List.getD_eq_getElem _ _ hw]

theorem colOf_getD (M : Mat) (c r : ℕ) : (colOf M c).getD r 0 = matEntry M r c := by
  have h := List.getD_map M ([] : List ℚ) (fun row => row.getD c 0) (n := r)
  simpa [colOf, matEntry] using h

theorem dotProd_diagRow (v : Vec) (r : ℕ) (w : Vec) (hr : r < v.length)
    (hw : w.length = v.length) :
    dotProd ((List.range v.length).map (fun c => if r = c then v.getD r 0 else 0)) w
      = v.getD r 0 * w.getD r 0 := by
  unfold dotProd
  rw [List.length_map, List.length_range, hw, min_self]
  have hcongr : ∀ i ∈ Finset.range v.length,
      ((List.range v.length).map (fun c => if r = c then v.getD r 0 else 0)).getD i 0
          * w.getD i 0
        = if r = i then v.getD r 0 * w.getD i 0 else 0 := by
    intro i hi
    rw [getD_map_range _ _ _ _ (Finset.mem_range.mp hi)]
    by_cases h : r = i <;> simp [h]
  rw [Finset.sum_congr rfl hcongr, Finset.sum_ite_eq]
  simp [hr]

theorem matMul_diag_entry (v : Vec) (M : Mat) (r c : ℕ) (hr : r < v.length)
    (hM : M.length = v.length) (hc : c < matWidth M) :
    matEntry (matMul (diagMat v) M) r c = v.getD r 0 * matEntry M r c := by
  have hlen : r < (diagMat v).length := by simp [diagMat, hr]
  have hrowEq : (matMul (diagMat v) M).getD r []
      = (List.range (matWidth M)).map (fun c2 => dotProd (diagMat v)[r] (colOf M c2)) := by
    unfold matMul
    rw [List.getD_eq_getElem _ _ (by simpa using hlen), List.getElem_map]
  unfold matEntry
  rw [hrowEq, getD_map_range _ _ _ _ hc]
  have hrow : (diagMat v)[r] = (List.range v.length).map
      (fun c2 => if r = c2 then v.getD r 0 else 0) := by
    simp only [diagMat]
    rw [List.getElem_map]
    congr 1
    simp [List.getElem_range]
  rw [hrow, dotProd_diagRow v r _ hr (by simp [colOf, hM]), colOf_getD]
  rfl

theorem matAdd_entry (A B : Mat) (n N r c : ℕ) (hA : HasShape A n N)
    (hB : HasShape B n N) (hr : r < n) (hc : c < N) :
    matEntry (matAdd A B) r c = matEntry A r c + matEntry B r c := by
  obtain ⟨hA1, hA2⟩ := hA
  obtain ⟨hB1, hB2⟩ := hB
  have hrA : r < A.length := by omega
  have hrB : r < B.length := by omega
  unfold matAdd matEntry
  rw [List.getD_eq_getElem _ _ (by simp [hrA, hrB] : r < (List.zipWith _ A B).length),
    List.getElem_zipWith]
  have hcA : c < A[r].length := by rw [hA2 A[r] (A.getElem_mem hrA)]; omega
  have hcB : c < B[r].length := by rw [hB2 B[r] (B.getElem_mem hrB)]; omega
  rw [zipWith_getD _ _ _ _ hcA hcB, List.getD_eq_getElem _ _ hrA,
    List.getD_eq_getElem _ _ hrB]

theorem matMul_shape (A B : Mat) : HasShape (matMul A B) A.length (matWidth B) := by
  constructor
  · simp [matMul]
  · intro row hrow
    simp only [matMul, List.mem_map] at hrow
    obtain ⟨r, _, hr⟩ := hrow
    simp [← hr]

theorem diagMat_length (v : Vec) : (diagMat v).length = v.length := by simp [diagMat]

theorem matWidth_of_shape (M : Mat) (n N : ℕ) (h : HasShape M n N) (hn : 0 < n) :
    matWidth M = N := by
  obtain ⟨h1, h2⟩ := h
  have : M.headD [] ∈ M := by
    cases M with
    | nil => simp at h1; omega
    | cons x xs => simp
  exact h2 _ this

theorem eyeMat_shape (n : ℕ) : HasShape (eyeMat n) n n := by
  constructor
  · simp [eyeMat]
  · intro row hrow
    simp only [eyeMat, List.mem_map] at hrow
    obtain ⟨r, _, hr⟩ := hrow
    simp [← hr]

theorem eyeMat_entry (n r c : ℕ) (hr : r < n) (hc : c < n) :
    matEntry (eyeMat n) r c = if r = c then 1 else 0 := by
  unfold eyeMat matEntry
  rw [getD_map_range _ _ _ _ hr, getD_map_range _ _ _ _ hc]

theorem adMul_jac_entry (a b : Ad_array) (n N r c : ℕ)
    (hav : a.val.length = n) (hbv : b.val.length = n)
    (haj : HasShape a.jac n N) (hbj : HasShape b.jac n N)
    (hr : r < n) (hc : c < N) :
    matEntry (adMul a b).jac r c
      = b.val.getD r 0 * matEntry a.jac r c + a.val.getD r 0 * matEntry b.jac r c := by
  have hn : 0 < n := by omega
  have hal : a.jac.length = n := haj.1
  have hbl : b.jac.length = n := hbj.1
  have hwa : matWidth a.jac = N := matWidth_of_shape _ _ _ haj hn
  have hwb : matWidth b.jac = N := matWidth_of_shape _ _ _ hbj hn
  have s1 : HasShape (matMul (diagMat b.val) a.jac) n N := by
    have := matMul_shape (diagMat b.val) a.jac
    rwa [diagMat_length, hbv, hwa] at this
  have s2 : HasShape (matMul (diagMat a.val) b.jac) n N := by
    have := matMul_shape (diagMat a.val) b.jac
    rwa [diagMat_length, hav, hwb] at this
  show matEntry (matAdd _ _) r c = _
  rw [matAdd_entry _ _ n N r c s1 s2 hr hc,
    matMul_diag_entry b.val a.jac r c (by omega) (by omega) (by omega),
    matMul_diag_entry a.val b.jac r c (by omega) (by omega) (by omega)]

theorem getD_replicate_zero (n c : ℕ) : (List.replicate n (0 : ℚ)).getD c 0 = 0 := by
  rcases lt_or_ge c n with h | h
  · rw [List.getD_eq_getElem _ _ (by simpa using h)]
    simp
  · rw [List.getD_eq_default _ _ (by simpa using h)]

theorem flatten_zeros (ws : List ℕ) :
    (ws.map (fun m => List.replicate m (0 : ℚ))).flatten = List.replicate ws.sum 0 := by
  induction ws with
  | nil => simp
  | cons w ws ih =>
    rw [List.map_cons, List.flatten_cons, ih, List.sum_cons, List.replicate_add]

theorem flatten_set_getD (ws : List ℕ) (i : ℕ) (e : Vec) (c : ℕ) (hi : i < ws.length) :
    (((ws.map (fun m => List.replicate m (0 : ℚ))).set i e).flatten).getD c 0
      = if (ws.take i).sum ≤ c ∧ c < (ws.take i).sum + e.length
        then e.getD (c - (ws.take i).sum) 0 else 0 := by
  induction ws generalizing i c with
  | nil => simp at hi
  | cons w ws ih =>
    cases i with
    | zero =>
      simp only [List.map_cons, List.set_cons_zero, List.flatten_cons, List.take_zero,
        List.sum_nil, Nat.zero_add, Nat.zero_le, true_and, Nat.sub_zero]
      rcases lt_or_ge c e.length with h | h
      · rw [List.getD_append _ _ _ _ h, if_pos h]
      · rw [List.getD_append_right _ _ _ _ h, if_neg (by omega), flatten_zeros,
          getD_replicate_zero]
    | succ j =>
      simp only [List.map_cons, List.set_cons_succ, List.flatten_cons, List.take_succ_cons,
        List.sum_cons]
      rcases lt_or_ge c w with h | h
      · rw [List.getD_append _ _ _ _ (by simpa using h), getD_replicate_zero,
          if_neg (by omega)]
      · rw [List.getD_append_right _ _ _ _ (by simpa using h)]
        simp only [List.length_replicate]
        rw [ih j (c - w) (by simpa using hi)]
        have hsub : c - w - (ws.take j).sum = c - (w + (ws.take j).sum) := by omega
        rw [hsub]
        refine if_congr ?_ rfl rfl
        omega

theorem initAdArrays_getD (vs : List Vec) (i : ℕ) (hi : i < vs.length) :
    (initAdArrays vs).getD i adDefault
      = ⟨vs[i], hstack (vs[i].length)
          (((vs.map List.length).map (fun m => zeroMat (vs[i].length) m)).set i
            (eyeMat (vs[i].length)))⟩ := by
  unfold initAdArrays
  rw [List.getD_eq_getElem _ _ (by simpa [List.enum_length] using hi),
    List.getElem_map, List.getElem_enum]

theorem eyeMat_getD_row (n r : ℕ) (hr : r < n) :
    (eyeMat n).getD r [] = (List.range n).map (fun c => if r = c then (1 : ℚ) else 0) := by
  unfold eyeMat
  exact getD_map_range _ _ _ _ hr

theorem zeroMat_getD_row (n m r : ℕ) (hr : r < n) :
    (zeroMat n m).getD r [] = List.replicate m (0 : ℚ) := by
  unfold zeroMat
  rw [List.getD_eq_getElem _ _ (by simpa using hr)]
  simp

theorem full_dof_length (R : Registry) : (full_dof R).length = R.blocks.length := by
  simp [full_dof]

theorem keysOf_length (R : Registry) : (keysOf R).length = R.blocks.length := by
  simp [keysOf]

theorem prefixSums_length (ws : List ℕ) : ∀ a : ℕ, (prefixSums a ws).length = ws.length + 1 := by
  induction ws with
  | nil => intro a; rfl
  | cons w ws ih => intro a; simp [prefixSums, ih]

theorem prefixSums_getD (ws : List ℕ) : ∀ (a i : ℕ), i ≤ ws.length →
    (prefixSums a ws).getD i 0 = a + (ws.take i).sum := by
  induction ws with
  | nil =>
    intro a i h
    have hi : i = 0 := by simpa using h
    subst hi
    simp [prefixSums]
  | cons w ws ih =>
    intro a i h
    cases i with
    | zero => simp [prefixSums]
    | succ j =>
      have hj : j ≤ ws.length := by simpa using h
      simp only [prefixSums, List.getD_cons_succ, List.take_succ_cons, List.sum_cons]
      rw [ih (a + w) j hj]
      omega

theorem prefixSums_getLastD (ws : List ℕ) : ∀ (a d : ℕ),
    (prefixSums a ws).getLastD d = a + ws.sum := by
  induction ws with
  | nil => intro a d; simp [prefixSums]
  | cons w ws ih =>
    intro a d
    show (a :: prefixSums (a + w) ws).getLastD d = _
    rw [List.getLastD_cons, ih (a + w) a]
    simp
    omega

theorem dofStart_length (R : Registry) : (dofStart R).length = R.blocks.length + 1 := by
  rw [dofStart, prefixSums_length, full_dof_length]

theorem dofStart_getD (R : Registry) (i : ℕ) (h : i ≤ R.blocks.length) :
    (dofStart R).getD i 0 = ((full_dof R).take i).sum := by
  rw [dofStart, prefixSums_getD _ _ _ (by rw [full_dof_length]; exact h)]
  omega

theorem dofStart_getLastD (R : Registry) : (dofStart R).getLastD 0 = num_dofs R := by
  rw [dofStart, prefixSums_getLastD]
  simp [num_dofs]

theorem blockIndex_lt (R : Registry) (k : BKey) (hk : k ∈ keysOf R) :
    blockIndex R k < R.blocks.length := by
  rw [blockIndex.eq_def, ← keysOf_length R]
  exact List.findIdx_lt_length_of_exists ⟨k, hk, by simp⟩

theorem keys_get_blockIndex (R : Registry) (k : BKey) (hk : k ∈ keysOf R) :
    (keysOf R).get ⟨blockIndex R k, by rw [keysOf_length]; exact blockIndex_lt R k hk⟩
      = k := by
  have hlt : blockIndex R k < (keysOf R).length := by
    rw [keysOf_length]
    exact blockIndex_lt R k hk
  have h := @List.findIdx_getElem _ (fun x => x = k) (keysOf R) hlt
  simpa using h

theorem blockIndex_get (R : Registry) (hnd : (keysOf R).Nodup) (b : ℕ)
    (hb : b < (keysOf R).length) : blockIndex R ((keysOf R).get ⟨b, hb⟩) = b := by
  have hmem : (keysOf R).get ⟨b, hb⟩ ∈ keysOf R := List.get_mem _ b hb
  have hlt : blockIndex R ((keysOf R).get ⟨b, hb⟩) < (keysOf R).length := by
    have h1 := blockIndex_lt R _ hmem
    have h2 := keysOf_length R
    omega
  have heq := keys_get_blockIndex R ((keysOf R).get ⟨b, hb⟩) hmem
  have := (List.Nodup.getElem_inj_iff hnd).mp (by simpa using heq)
  exact this

theorem blockEnd_eq (R : Registry) (k : BKey) (hk : k ∈ keysOf R) :
    blockEnd R k = blockStart R k + (full_dof R).getD (blockIndex R k) 0 := by
  have hb := blockIndex_lt R k hk
  rw [blockEnd, blockStart, dofStart_getD R _ (by omega), dofStart_getD R _ (by omega)]
  rw [List.sum_take_succ _ _ (by rw [full_dof_length]; omega),
    List.getD_eq_getElem _ _ (by rw [full_dof_length]; omega)]

theorem blockEnd_le_num_dofs (R : Registry) (k : BKey) (hk : k ∈ keysOf R) :
    blockEnd R k ≤ num_dofs R := by
  have hb := blockIndex_lt R k hk
  rw [blockEnd, dofStart_getD R _ (by omega), num_dofs]
  calc ((full_dof R).take (blockIndex R k + 1)).sum
      ≤ ((full_dof R).take (blockIndex R k + 1)).sum
        + ((full_dof R).drop (blockIndex R k + 1)).sum := by omega
    _ = (full_dof R).sum := by rw [← List.sum_append, List.take_append_drop]

theorem stateSlot_putSlot (store : Store) (g : GridLike) (vr : String) (w : Vec)
    (g1 : GridLike) (v1 : String) :
    stateSlot (putSlot store g vr false w) g1 v1
      = if g1 = g ∧ v1 = vr then some w else stateSlot store g1 v1 := by
  by_cases hg : g1 = g
  · subst hg
    by_cases hv : v1 = vr
    · subst hv
      simp [stateSlot, putSlot]
    · simp only [stateSlot, putSlot, if_pos rfl, if_neg (by simp [hv] : ¬(g1 = g1 ∧ v1 = vr))]
      cases hst : (store g1).state with
      | none => simp [hst, emptyStateDict, hv]
      | some sd => simp [hst, hv]
  · simp [stateSlot, putSlot, hg]

theorem distStep_mem (R : Registry) (values : Vec) (store : Store) (g : GridLike)
    (vr : String) (hk : (g, vr) ∈ keysOf R) (hlen : num_dofs R ≤ values.length) :
    distStep R values false false store g vr
      = .ok (putSlot store g vr false (sliceOf R values (g, vr))) := by
  have he := blockEnd_eq R (g, vr) hk
  have hle := blockEnd_le_num_dofs R (g, vr) hk
  unfold distStep npFancyIndex sliceOf
  rw [if_pos hk, if_pos (Or.inl (by omega))]
  rfl

theorem distStep_not_mem (R : Registry) (values : Vec) (store : Store) (g : GridLike)
    (vr : String) (hk : (g, vr) ∉ keysOf R) :
    distStep R values false false store g vr = .ok store := by
  unfold distStep
  rw [if_neg hk]

theorem distLoop_ok (R : Registry) (values : Vec) (hlen : num_dofs R ≤ values.length) :
    ∀ (pairs : List BKey) (store : Store),
    ∃ store2, distLoop R values false false pairs store = .ok store2 ∧
      ∀ g vr, stateSlot store2 g vr
        = if (g, vr) ∈ pairs ∧ (g, vr) ∈ keysOf R
          then some (sliceOf R values (g, vr)) else stateSlot store g vr := by
  intro pairs
  induction pairs with
  | nil =>
    intro store
    exact ⟨store, rfl, by simp⟩
  | cons p rest ih =>
    intro store
    obtain ⟨g0, v0⟩ := p
    by_cases hk : (g0, v0) ∈ keysOf R
    · obtain ⟨store2, h2, hslot⟩ := ih (putSlot store g0 v0 false (sliceOf R values (g0, v0)))
      refine ⟨store2, ?_, ?_⟩
      · simp only [distLoop]
        rw [distStep_mem R values store g0 v0 hk hlen]
        exact h2
      · intro g vr
        rw [hslot g vr, stateSlot_putSlot]
        simp only [List.mem_cons]
        by_cases heq : (g, vr) = (g0, v0)
        · obtain ⟨rfl, rfl⟩ : g = g0 ∧ vr = v0 := by simpa using heq
          simp [hk]
        · have hne : ¬(g = g0 ∧ vr = v0) := by
            intro h
            exact heq (by rw [h.1, h.2])
          simp [heq, hne]
    · obtain ⟨store2, h2, hslot⟩ := ih store
      refine ⟨store2, ?_, ?_⟩
      · simp only [distLoop]
        rw [distStep_not_mem R values store g0 v0 hk]
        exact h2
      · intro g vr
        rw [hslot g vr]
        simp only [List.mem_cons]
        by_cases heq : (g, vr) = (g0, v0)
        · obtain ⟨rfl, rfl⟩ : g = g0 ∧ vr = v0 := by simpa using heq
          simp [hk]
        · simp [heq]

theorem sliceOf_length (R : Registry) (values : Vec) (k : BKey) (hk : k ∈ keysOf R)
    (hlen : num_dofs R ≤ values.length) :
    (sliceOf R values k).length = blockEnd R k - blockStart R k := by
  have he := blockEnd_eq R k hk
  have hle := blockEnd_le_num_dofs R k hk
  unfold sliceOf
  simp only [List.length_take, List.length_drop]
  omega

theorem getD_drop (l : Vec) (n t : ℕ) : (l.drop n).getD t 0 = l.getD (n + t) 0 := by
  rcases lt_or_ge (n + t) l.length with h | h
  · rw [List.getD_eq_getElem _ _ (by simp; omega), List.getElem_drop,
      List.getD_eq_getElem _ _ h]
  · rw [List.getD_eq_default _ _ (by simp; omega), List.getD_eq_default _ _ h]

theorem getD_take (l : Vec) (n t : ℕ) (ht : t < n) :
    (l.take n).getD t 0 = l.getD t 0 := by
  rcases lt_or_ge t l.length with h | h
  · rw [List.getD_eq_getElem _ _ (by simp; omega), List.getElem_take,
      List.getD_eq_getElem _ _ h]
  · rw [List.getD_eq_default _ _ (by simp; omega), List.getD_eq_default _ _ h]

theorem sliceOf_getD (R : Registry) (values : Vec) (k : BKey) (t : ℕ)
    (ht : t < blockEnd R k - blockStart R k) :
    (sliceOf R values k).getD t 0 = values.getD (blockStart R k + t) 0 := by
  unfold sliceOf
  rw [getD_take _ _ _ ht, getD_drop]

theorem npSetSlice_exact (values arr : Vec) (start w : ℕ) (hw : arr.length = w)
    (hle : start + w ≤ values.length) :
    npSetSlice values start w arr = .ok (writeSlice values start arr) := by
  unfold npSetSlice
  rw [if_pos (Or.inl hle), if_pos hw]

theorem writeSlice_length (values arr : Vec) (start : ℕ)
    (h : start + arr.length ≤ values.length) :
    (writeSlice values start arr).length = values.length := by
  unfold writeSlice
  simp only [List.length_append, List.length_take, List.length_drop]
  omega

theorem writeSlice_getD (values arr : Vec) (start idx : ℕ)
    (h : start + arr.length ≤ values.length) :
    (writeSlice values start arr).getD idx 0
      = if start ≤ idx ∧ idx < start + arr.length then arr.getD (idx - start) 0
        else values.getD idx 0 := by
  unfold writeSlice
  have hts : (values.take start).length = start := by simp; omega
  rw [List.append_assoc]
  rcases lt_or_ge idx start with h1 | h1
  · rw [List.getD_append _ _ _ _ (by omega), getD_take _ _ _ h1, if_neg (by omega)]
  · rw [List.getD_append_right _ _ _ _ (by omega), hts]
    rcases lt_or_ge idx (start + arr.length) with h2 | h2
    · rw [List.getD_append _ _ _ _ (by omega), if_pos (by omega)]
    · rw [List.getD_append_right _ _ _ _ (by omega), if_neg (by omega), getD_drop]
      congr 1
      omega

theorem asmLoop_ok (R : Registry) (store : Store) (values : Vec)
    (hv : num_dofs R ≤ values.length)
    (hstore : ∀ k, k ∈ keysOf R → stateSlot store k.1 k.2 = some (sliceOf R values k)) :
    ∀ (pairs : List BKey) (acc : Vec), acc.length = num_dofs R →
    ∃ out, asmLoop R store false pairs acc = .ok out ∧ out.length = num_dofs R ∧
      ∀ idx, out.getD idx 0
        = if ∃ k, k ∈ pairs ∧ k ∈ keysOf R ∧ blockStart R k ≤ idx ∧ idx < blockEnd R k
          then values.getD idx 0 else acc.getD idx 0 := by
  intro pairs
  induction pairs with
  | nil =>
    intro acc hacc
    refine ⟨acc, rfl, hacc, ?_⟩
    intro idx
    rw [if_neg (by simp)]
  | cons p rest ih =>
    intro acc hacc
    obtain ⟨g0, v0⟩ := p
    by_cases hk : (g0, v0) ∈ keysOf R
    · have he := blockEnd_eq R (g0, v0) hk
      have hle := blockEnd_le_num_dofs R (g0, v0) hk
      have hsl := sliceOf_length R values (g0, v0) hk hv
      obtain ⟨out, hout, houtlen, hpt⟩ :=
        ih (writeSlice acc (blockStart R (g0, v0)) (sliceOf R values (g0, v0)))
          (by rw [writeSlice_length _ _ _ (by omega)]; exact hacc)
      refine ⟨out, ?_, houtlen, ?_⟩
      · simp only [asmLoop]
        rw [if_pos hk, if_neg (by simp : ¬(false = true)), hstore (g0, v0) hk]
        show (match npSetSlice acc (blockStart R (g0, v0))
            (blockEnd R (g0, v0) - blockStart R (g0, v0)) (sliceOf R values (g0, v0)) with
          | .error e => Except.error e
          | .ok values1 => asmLoop R store false rest values1) = Except.ok out
        rw [npSetSlice_exact acc (sliceOf R values (g0, v0)) (blockStart R (g0, v0))
            (blockEnd R (g0, v0) - blockStart R (g0, v0)) hsl (by omega)]
        exact hout
      · intro idx
        rw [hpt idx, writeSlice_getD _ _ _ _ (by omega)]
        by_cases hrest : ∃ k, k ∈ rest ∧ k ∈ keysOf R
            ∧ blockStart R k ≤ idx ∧ idx < blockEnd R k
        · obtain ⟨k, hk1, hk2, hk3⟩ := hrest
          rw [if_pos ⟨k, hk1, hk2, hk3⟩,
            if_pos ⟨k, List.mem_cons_of_mem _ hk1, hk2, hk3⟩]
        · rw [if_neg hrest]
          by_cases hg0 : blockStart R (g0, v0) ≤ idx ∧ idx < blockEnd R (g0, v0)
          · rw [if_pos (by omega), sliceOf_getD _ _ _ _ (by omega),
              if_pos ⟨(g0, v0), List.mem_cons_self _ _, hk, hg0⟩]
            congr 1
            omega
          · rw [if_neg (by omega), if_neg ?_]
            rintro ⟨k, hkmem, hk2, hk3⟩
            rcases List.mem_cons.mp hkmem with hkeq | hkr
            · exact hg0 (by rw [← hkeq]; exact hk3)
            · exact hrest ⟨k, hkr, hk2, hk3⟩
    · obtain ⟨out, hout, houtlen, hpt⟩ := ih acc hacc
      refine ⟨out, ?_, houtlen, ?_⟩
      · simp only [asmLoop]
        rw [if_neg hk]
        exact hout
      · intro idx
        rw [hpt idx]
        by_cases hrest : ∃ k, k ∈ rest ∧ k ∈ keysOf R
            ∧ blockStart R k ≤ idx ∧ idx < blockEnd R k
        · obtain ⟨k, hk1, hk2, hk3⟩ := hrest
          rw [if_pos ⟨k, hk1, hk2, hk3⟩,
            if_pos ⟨k, List.mem_cons_of_mem _ hk1, hk2, hk3⟩]
        · rw [if_neg hrest, if_neg ?_]
          rintro ⟨k, hkmem, hk2, hk3⟩
          rcases List.mem_cons.mp hkmem with hkeq | hkr
          · exact hk (by rw [← hkeq]; exact hk2)
          · exact hrest ⟨k, hkr, hk2, hk3⟩

theorem sum_cover (ws : List ℕ) : ∀ idx, idx < ws.sum →
    ∃ b, b < ws.length ∧ (ws.take b).sum ≤ idx ∧ idx < (ws.take (b + 1)).sum := by
  induction ws with
  | nil => intro idx h; simp at h
  | cons w ws ih =>
    intro idx h
    rcases lt_or_ge idx w with h1 | h1
    · exact ⟨0, by simp, by simp, by simpa using h1⟩
    · obtain ⟨b, hb, h2, h3⟩ := ih (idx - w) (by simp at h; omega)
      refine ⟨b + 1, by simpa using hb, ?_, ?_⟩
      · simp only [List.take_succ_cons, List.sum_cons]
        omega
      · simp only [List.take_succ_cons, List.sum_cons]
        omega

theorem block_cover (R : Registry) (hnd : (keysOf R).Nodup) (idx : ℕ)
    (h : idx < num_dofs R) :
    ∃ k, k ∈ keysOf R ∧ blockStart R k ≤ idx ∧ idx < blockEnd R k := by
  obtain ⟨b, hb, h1, h2⟩ := sum_cover (full_dof R) idx h
  have hfl := full_dof_length R
  have hbk : b < (keysOf R).length := by rw [keysOf_length]; omega
  refine ⟨(keysOf R).get ⟨b, hbk⟩, List.get_mem _ _ _, ?_, ?_⟩
  · rw [blockStart, blockIndex_get R hnd b hbk, dofStart_getD R b (by omega)]
    exact h1
  · rw [blockEnd, blockIndex_get R hnd b hbk, dofStart_getD R (b + 1) (by omega)]
    exact h2

theorem default_pairs_cover (R : Registry) (k : BKey) (hk : k ∈ keysOf R) :
    k ∈ defaultGrids R ×ˢ defaultVars R := by
  obtain ⟨g, v⟩ := k
  show (g, v) ∈ (defaultGrids R).product (defaultVars R)
  rw [List.pair_mem_product]
  constructor
  · rw [defaultGrids, List.mem_dedup]
    exact List.mem_map_of_mem _ hk
  · rw [defaultVars, List.mem_dedup]
    exact List.mem_map_of_mem _ hk

/-! ## Claim theorems -/

/-- C1: for a registry with registered blocks and any global vector `v` of
length `num_dofs()`, `distribute_variable(v, additive=False,
to_iterate=False)` followed by `assemble_variable(from_iterate=False)` with
the default (all-blocks) selection returns a vector equal to `v`. -/
theorem C1_distribute_assemble_round_trip (R : Registry) (store : Store) (v : Vec)
    (hnd : (keysOf R).Nodup) (hlen : v.length = num_dofs R) :
    ∃ store2, distribute_variable R store v none none false false = .ok store2 ∧
      assemble_variable R store2 none none false = .ok v := by
  obtain ⟨store2, hdist, hslot⟩ :=
    distLoop_ok R v (by omega) (defaultGrids R ×ˢ defaultVars R) store
  have hstore2 : ∀ k, k ∈ keysOf R →
      stateSlot store2 k.1 k.2 = some (sliceOf R v k) := by
    intro k hk
    obtain ⟨g, vr⟩ := k
    rw [hslot g vr, if_pos ⟨default_pairs_cover R (g, vr) hk, hk⟩]
  obtain ⟨out, hasm, houtlen, hpt⟩ := asmLoop_ok R store2 v (by omega) hstore2
    (defaultGrids R ×ˢ defaultVars R) (List.replicate (num_dofs R) 0) (by simp)
  refine ⟨store2, hdist, ?_⟩
  show asmLoop R store2 false (defaultGrids R ×ˢ defaultVars R)
      (List.replicate (num_dofs R) 0) = .ok v
  rw [hasm]
  refine congrArg Except.ok (List.ext_getElem (by omega) ?_)
  intro idx h1 h2
  have hidx : idx < num_dofs R := by omega
  obtain ⟨k, hkmem, hk1, hk2⟩ := block_cover R hnd idx hidx
  have hcond : ∃ k, k ∈ defaultGrids R ×ˢ defaultVars R ∧ k ∈ keysOf R ∧
      blockStart R k ≤ idx ∧ idx < blockEnd R k :=
    ⟨k, default_pairs_cover R k hkmem, hkmem, hk1, hk2⟩
  have hp := hpt idx
  rw [if_pos hcond] at hp
  rw [← List.getD_eq_getElem out 0 h1, ← List.getD_eq_getElem v 0 h2]
  exact hp

/-- Witness for C1 on the registry of the spec's concrete scenario. -/
theorem C1_distribute_assemble_round_trip_witness :
    ∃ store2, distribute_variable ⟨[((⟨0, false⟩, "p"), 3), ((⟨1, false⟩, "p"), 2)]⟩
        (fun _ => ⟨none⟩) [1, 2, 3, 4, 5] none none false false = .ok store2 ∧
      assemble_variable ⟨[((⟨0, false⟩, "p"), 3), ((⟨1, false⟩, "p"), 2)]⟩
        store2 none none false = .ok [1, 2, 3, 4, 5] :=
  C1_distribute_assemble_round_trip _ _ _ (by decide) (by decide)

/-- C10: `distribute_variable` never fails on an unregistered selection: every
selected (grid, variable) combination that is not a registered block is
silently skipped, leaving that slot of the storage unchanged, while every
registered pair in the selection is written with its block slice. -/
theorem C10_distribute_skips_unregistered (R : Registry) (store : Store) (v : Vec)
    (grids : List GridLike) (vars1 : List String) (hlen : v.length = num_dofs R) :
    ∃ store2, distribute_variable R store v (some grids) (some vars1) false false
        = .ok store2 ∧
      (∀ g vr, (g, vr) ∈ grids ×ˢ vars1 → (g, vr) ∉ keysOf R →
        stateSlot store2 g vr = stateSlot store g vr) ∧
      (∀ g vr, (g, vr) ∈ grids ×ˢ vars1 → (g, vr) ∈ keysOf R →
        stateSlot store2 g vr = some (sliceOf R v (g, vr))) := by
  obtain ⟨store2, hdist, hslot⟩ := distLoop_ok R v (by omega) (grids ×ˢ vars1) store
  refine ⟨store2, hdist, ?_, ?_⟩
  · intro g vr hmem hnk
    rw [hslot g vr, if_neg (fun h => hnk h.2)]
  · intro g vr hmem hk
    rw [hslot g vr, if_pos ⟨hmem, hk⟩]

/-- Witness for C10 with a selection containing an unregistered grid and an
unregistered variable name. -/
theorem C10_distribute_skips_unregistered_witness :
    ∃ store2, distribute_variable ⟨[((⟨0, false⟩, "p"), 3), ((⟨1, false⟩, "p"), 2)]⟩
        (fun _ => ⟨none⟩) [1, 2, 3, 4, 5]
        (some [⟨0, false⟩, ⟨2, false⟩]) (some ["p", "q"]) false false = .ok store2 ∧
      (∀ g vr, (g, vr) ∈ [GridLike.mk 0 false, GridLike.mk 2 false] ×ˢ ["p", "q"] →
        (g, vr) ∉ keysOf ⟨[((⟨0, false⟩, "p"), 3), ((⟨1, false⟩, "p"), 2)]⟩ →
        stateSlot store2 g vr = stateSlot (fun _ => ⟨none⟩) g vr) ∧
      (∀ g vr, (g, vr) ∈ [GridLike.mk 0 false, GridLike.mk 2 false] ×ˢ ["p", "q"] →
        (g, vr) ∈ keysOf ⟨[((⟨0, false⟩, "p"), 3), ((⟨1, false⟩, "p"), 2)]⟩ →
        stateSlot store2 g vr
          = some (sliceOf ⟨[((⟨0, false⟩, "p"), 3), ((⟨1, false⟩, "p"), 2)]⟩
              [1, 2, 3, 4, 5] (g, vr))) :=
  C10_distribute_skips_unregistered _ _ _ _ _ (by decide)

/-- C2 (code bug): `get_variable_values` is documented to gather all
registered blocks in block order (raising `KeyError` when a value is
missing), but the loop `for grid, name in self.block_dof.items()` unpacks
dictionary items, binding `grid` to the `(grid, variable)` key tuple and
`name` to the block index; neither `isinstance` check matches a tuple, the
local `data` is never assigned, and the first iteration raises
`UnboundLocalError`.  Here, on a registry with one subdomain block whose
value [1, 2, 3] is stored, the call errors instead of returning [1, 2, 3]. -/
theorem C2_get_variable_values_crashes :
    get_variable_values ⟨[((⟨0, false⟩, "p"), 3)]⟩
        (fun _ => ⟨some ⟨fun v => if v = "p" then some [1, 2, 3] else none, none⟩⟩)
        false
      = .error .unboundLocalError ∧
    get_variable_values ⟨[((⟨0, false⟩, "p"), 3)]⟩
        (fun _ => ⟨some ⟨fun v => if v = "p" then some [1, 2, 3] else none, none⟩⟩)
        false
      ≠ .ok [1, 2, 3] := by
  refine ⟨rfl, ?_⟩
  simp [get_variable_values, gvvLoop]

/-- C6: `dof_to_grid_and_variable` is a right inverse of the block lookup:
for every global index `0 ≤ i < num_dofs()` it returns a registered pair
whose `grid_and_variable_to_dofs` range contains `i`; for every negative
index and every index at or above `num_dofs()` it fails with a `ValueError`. -/
theorem C6_dof_to_grid_and_variable_inverse (R : Registry)
    (hnd : (keysOf R).Nodup) :
    (∀ i : ℕ, i < num_dofs R →
      ∃ g v, dof_to_grid_and_variable R (i : ℤ) = .ok (g, v) ∧
        (g, v) ∈ keysOf R ∧
        ∃ dofs, grid_and_variable_to_dofs R g v = .ok dofs ∧ i ∈ dofs) ∧
    (∀ i : ℤ, i < 0 ∨ (num_dofs R : ℤ) ≤ i →
      ∃ msg, dof_to_grid_and_variable R i = .error (.valueError msg)) := by
  constructor
  · intro i hi
    have hds_len : (dofStart R).length = R.blocks.length + 1 := dofStart_length R
    have hlastD : (dofStart R).getD R.blocks.length 0 = num_dofs R := by
      rw [dofStart_getD R _ le_rfl, num_dofs.eq_def,
        List.take_of_length_le (by rw [full_dof_length])]
    have hlastlt : R.blocks.length < (dofStart R).length := by omega
    have hlastmem : (dofStart R).getD R.blocks.length 0 ∈ dofStart R := by
      rw [List.getD_eq_getElem _ _ hlastlt]
      exact List.getElem_mem hlastlt
    have hplast : (fun s : ℕ => decide ((i : ℤ) < (s : ℤ))) (num_dofs R) = true :=
      decide_eq_true (by omega)
    have hex : (dofStart R).findIdx (fun s : ℕ => decide ((i : ℤ) < (s : ℤ))) < (dofStart R).length :=
      @List.findIdx_lt_length_of_exists ℕ (fun s : ℕ => decide ((i : ℤ) < (s : ℤ)))
        (dofStart R)
        ⟨(dofStart R).getD R.blocks.length 0, hlastmem, by rw [hlastD]; exact hplast⟩
    have hpj : (i : ℤ)
        < ((dofStart R).getD ((dofStart R).findIdx (fun s : ℕ => decide ((i : ℤ) < (s : ℤ)))) 0 : ℕ) := by
      have h := @List.findIdx_getElem ℕ (fun s : ℕ => decide ((i : ℤ) < (s : ℤ)))
        (dofStart R) hex
      rw [List.getD_eq_getElem _ _ hex]
      simpa using h
    have hj0 : 0 < (dofStart R).findIdx (fun s : ℕ => decide ((i : ℤ) < (s : ℤ))) := by
      by_contra h0
      have h00 : (dofStart R).findIdx (fun s : ℕ => decide ((i : ℤ) < (s : ℤ))) = 0 := by
        omega
      rw [h00] at hpj
      rw [dofStart_getD R 0 (by omega)] at hpj
      simp at hpj
      omega
    have hblt : (dofStart R).findIdx (fun s : ℕ => decide ((i : ℤ) < (s : ℤ))) - 1
        < (keysOf R).length := by
      rw [keysOf_length]
      omega
    have hblt2 : (dofStart R).findIdx (fun s : ℕ => decide ((i : ℤ) < (s : ℤ))) - 1
        < (dofStart R).length := by omega
    have hprev : ((dofStart R).getD
        ((dofStart R).findIdx (fun s : ℕ => decide ((i : ℤ) < (s : ℤ))) - 1) 0 : ℤ)
        ≤ (i : ℤ) := by
      have h := @List.not_of_lt_findIdx ℕ (fun s : ℕ => decide ((i : ℤ) < (s : ℤ)))
        (dofStart R)
        ((dofStart R).findIdx (fun s : ℕ => decide ((i : ℤ) < (s : ℤ))) - 1) (by omega)
      have h2 : ¬ ((i : ℤ) < ((dofStart R).get ⟨_, hblt2⟩ : ℕ)) := by simpa using h
      rw [List.getD_eq_getElem _ _ hblt2]
      exact Int.not_lt.mp h2
    simp only [dof_to_grid_and_variable]
    rw [if_neg (by rw [dofStart_getLastD]; omega), if_neg (by omega),
      List.get?_eq_get hblt]
    refine ⟨((keysOf R).get ⟨_, hblt⟩).1, ((keysOf R).get ⟨_, hblt⟩).2, rfl,
      List.get_mem _ _ hblt, ?_⟩
    have hmem : ((keysOf R).get ⟨_, hblt⟩) ∈ keysOf R := List.get_mem _ _ hblt
    have hmem2 : (((keysOf R).get ⟨_, hblt⟩).1, ((keysOf R).get ⟨_, hblt⟩).2)
        ∈ keysOf R := hmem
    have hbi : blockIndex R ((keysOf R).get ⟨_, hblt⟩)
        = (dofStart R).findIdx (fun s : ℕ => decide ((i : ℤ) < (s : ℤ))) - 1 :=
      blockIndex_get R hnd _ hblt
    refine ⟨_, by rw [grid_and_variable_to_dofs, if_pos hmem2], ?_⟩
    rw [List.mem_range'_1]
    have hstart : blockStart R ((keysOf R).get ⟨_, hblt⟩)
        = (dofStart R).getD ((dofStart R).findIdx (fun s : ℕ => decide ((i : ℤ) < (s : ℤ))) - 1) 0 := by
      rw [blockStart, hbi]
    have hend : blockEnd R ((keysOf R).get ⟨_, hblt⟩)
        = (dofStart R).getD ((dofStart R).findIdx (fun s : ℕ => decide ((i : ℤ) < (s : ℤ))) - 1 + 1) 0 := by
      rw [blockEnd, hbi]
    have hsucc : (dofStart R).findIdx (fun s : ℕ => decide ((i : ℤ) < (s : ℤ))) - 1 + 1
        = (dofStart R).findIdx (fun s : ℕ => decide ((i : ℤ) < (s : ℤ))) := by omega
    rw [hstart, hend, hsucc]
    omega
  · intro i hi
    simp only [dof_to_grid_and_variable]
    rcases hi with hneg | hge
    · rw [if_neg (by rw [dofStart_getLastD]; omega), if_pos hneg]
      exact ⟨_, rfl⟩
    · rw [if_pos (by rw [dofStart_getLastD]; omega)]
      exact ⟨_, rfl⟩

/-- Witness for C6 on the registry of the spec's concrete scenario. -/
theorem C6_dof_to_grid_and_variable_inverse_witness :
    (∃ g v, dof_to_grid_and_variable ⟨[((⟨0, false⟩, "p"), 3), ((⟨1, false⟩, "p"), 2)]⟩
        (4 : ℕ) = .ok (g, v) ∧
      (g, v) ∈ keysOf ⟨[((⟨0, false⟩, "p"), 3), ((⟨1, false⟩, "p"), 2)]⟩ ∧
      ∃ dofs, grid_and_variable_to_dofs ⟨[((⟨0, false⟩, "p"), 3), ((⟨1, false⟩, "p"), 2)]⟩
          g v = .ok dofs ∧ 4 ∈ dofs) ∧
    (∃ msg, dof_to_grid_and_variable ⟨[((⟨0, false⟩, "p"), 3), ((⟨1, false⟩, "p"), 2)]⟩
        (-1) = .error (.valueError msg)) :=
  ⟨(C6_dof_to_grid_and_variable_inverse _ (by decide)).1 4 (by decide),
   (C6_dof_to_grid_and_variable_inverse _ (by decide)).2 (-1) (by decide)⟩

/-- C3: `initAdArrays` on an ordered list of numeric vectors returns one
`Ad_array` per input whose value is that vector and whose Jacobian is zero
everywhere except an identity sub-block in the columns of its own block;
on a single (non-list) vector it returns one `Ad_array` whose Jacobian is the
identity matrix of the vector's size. -/
theorem C3_initAdArrays_seeding (vs : List Vec) :
    (initAdArrays vs).length = vs.length ∧
    (∀ (i : ℕ), i < vs.length →
      ((initAdArrays vs).getD i adDefault).val = vs.getD i [] ∧
      ∀ (r c : ℕ), r < (vs.getD i []).length → c < totalSize vs →
        matEntry ((initAdArrays vs).getD i adDefault).jac r c
          = if c = blockOffset vs i + r then 1 else 0) ∧
    (∀ (v : Vec), (initAdArraySingle v).val = v ∧
      ∀ (r c : ℕ), r < v.length → c < v.length →
        matEntry (initAdArraySingle v).jac r c = if r = c then 1 else 0) := by
  refine ⟨by simp [initAdArrays, List.enum_length], ?_, ?_⟩
  · intro i hi
    have hgetD : vs.getD i [] = vs[i] := List.getD_eq_getElem vs [] hi
    rw [initAdArrays_getD vs i hi, hgetD]
    refine ⟨rfl, ?_⟩
    intro r c hr hc
    show matEntry (hstack (vs[i].length) _) r c = _
    unfold matEntry hstack
    rw [getD_map_range _ _ _ _ hr]
    rw [List.map_set, List.map_map]
    have hmaps : (vs.map List.length).map
          ((fun M => M.getD r []) ∘ (fun m => zeroMat (vs[i].length) m))
        = (vs.map List.length).map (fun m => List.replicate m (0 : ℚ)) :=
      List.map_congr_left (fun m _ => zeroMat_getD_row _ m r hr)
    rw [hmaps, eyeMat_getD_row _ _ hr,
      flatten_set_getD _ i _ c (by simpa using hi)]
    simp only [List.length_map, List.length_range]
    have hoff : (List.take i (List.map List.length vs)).sum = blockOffset vs i := rfl
    rw [hoff]
    by_cases hin : blockOffset vs i ≤ c ∧ c < blockOffset vs i + vs[i].length
    · rw [if_pos (by exact hin), getD_map_range _ _ _ _ (by omega)]
      refine if_congr ?_ rfl rfl
      omega
    · rw [if_neg (by exact hin), if_neg (by omega)]
  · intro v
    exact ⟨rfl, fun r c hr hc => eyeMat_entry v.length r c hr hc⟩

/-- Witness for C3 on two concrete blocks and one concrete single vector. -/
theorem C3_initAdArrays_seeding_witness :
    ((initAdArrays [[1, 2], [(3 : ℚ)]]).getD 1 adDefault).val = [3] ∧
    matEntry ((initAdArrays [[1, 2], [(3 : ℚ)]]).getD 1 adDefault).jac 0 2 = 1 ∧
    matEntry ((initAdArrays [[1, 2], [(3 : ℚ)]]).getD 1 adDefault).jac 0 0 = 0 ∧
    matEntry (initAdArraySingle [(5 : ℚ), 6]).jac 0 1 = 0 := by
  have h := C3_initAdArrays_seeding [[1, 2], [(3 : ℚ)]]
  have h2 := h.2.1 1 (by decide)
  refine ⟨h2.1, ?_, ?_, ?_⟩
  · rw [h2.2 0 2 (by decide) (by decide)]
    norm_num [blockOffset]
  · rw [h2.2 0 0 (by decide) (by decide)]
    norm_num [blockOffset]
  · rw [(h.2.2 [(5 : ℚ), 6]).2 0 1 (by decide) (by decide)]
    norm_num

/-- C4: for `Ad_array` operands of equal size sharing the same global width,
`__mul__` returns the elementwise product of the values, and the Jacobian
follows the product rule `diags(b.val) * a.jac + diags(a.val) * b.jac`:
entrywise, entry `(r, c)` of the product's Jacobian is
`b.val[r] * a.jac[r, c] + a.val[r] * b.jac[r, c]`.  In particular, for a
seeded `Ad_array` with identity Jacobian, `(x * x).jac = diags(2 * x.val)`. -/
theorem C4_mul_product_rule (a b : Ad_array) (n N : ℕ)
    (hav : a.val.length = n) (hbv : b.val.length = n)
    (haj : HasShape a.jac n N) (hbj : HasShape b.jac n N) :
    (∀ i, i < n → (adMul a b).val.getD i 0 = a.val.getD i 0 * b.val.getD i 0) ∧
    (∀ r c, r < n → c < N →
      matEntry (adMul a b).jac r c
        = b.val.getD r 0 * matEntry a.jac r c
          + a.val.getD r 0 * matEntry b.jac r c) ∧
    (∀ (v : Vec) (r c : ℕ), r < v.length → c < v.length →
      matEntry (adMul (initAdArraySingle v) (initAdArraySingle v)).jac r c
        = if r = c then 2 * v.getD r 0 else 0) := by
  refine ⟨?_, ?_, ?_⟩
  · intro i hi
    exact zipWith_getD _ _ _ _ (by omega) (by omega) 0
  · intro r c hr hc
    exact adMul_jac_entry a b n N r c hav hbv haj hbj hr hc
  · intro v r c hr hc
    have h := adMul_jac_entry (initAdArraySingle v) (initAdArraySingle v)
      v.length v.length r c rfl rfl (eyeMat_shape v.length) (eyeMat_shape v.length) hr hc
    rw [h]
    show v.getD r 0 * matEntry (eyeMat v.length) r c
        + v.getD r 0 * matEntry (eyeMat v.length) r c = _
    rw [eyeMat_entry _ _ _ hr hc]
    rcases eq_or_ne r c with hrc | hrc
    · subst hrc
      rw [if_pos rfl, if_pos rfl]
      ring
    · rw [if_neg hrc, if_neg hrc]
      ring

/-- Witness for C4 at concrete two-component operands. -/
theorem C4_mul_product_rule_witness :
    matEntry (adMul ⟨[2, 3], [[1, 0], [0, 1]]⟩ ⟨[5, 7], [[1, 1], [0, 2]]⟩).jac 0 1
        = (5 : ℚ) * 0 + 2 * 1 ∧
    matEntry (adMul (initAdArraySingle [4, 9]) (initAdArraySingle [4, 9])).jac 1 1
        = (2 : ℚ) * 9 := by
  have h := C4_mul_product_rule ⟨[2, 3], [[1, 0], [0, 1]]⟩ ⟨[5, 7], [[1, 1], [0, 2]]⟩
    2 2 rfl rfl (by constructor <;> simp [HasShape])
    (by constructor <;> simp [HasShape])
  constructor
  · have h2 := h.2.1 0 1 (by decide) (by decide)
    rw [h2]
    simp [matEntry]
  · have h3 := h.2.2 [4, 9] 1 1 (by decide) (by decide)
    rw [h3]
    norm_num

/-- C8 counterexample: seeding the two singleton blocks of `[3, 4]` gives a
first `Ad_array` whose Jacobian is `[[1, 0]]` — one row over the full
two-column global vector — and not `[[1]]` as claimed. -/
theorem C8_counterexample :
    ((initAdArrays [[3], [4]]).getD 0 adDefault).jac = [[1, 0]] ∧
    ((initAdArrays [[3], [4]]).getD 0 adDefault).jac ≠ [[1]] := by
  decide

/-- C8 (amended): seeding the two singleton blocks `[3]` and `[4]` yields a
first `Ad_array` `x` with `x.val = [3]` and `x.jac = [[1, 0]]` (identity in
its own column, zero in the other block's column), and `y = x ** 2` then has
`y.val = [9]` and `y.jac = [[6, 0]]`. -/
theorem C8_seed_and_square :
    ((initAdArrays [[3], [4]]).getD 0 adDefault).val = [3] ∧
    ((initAdArrays [[3], [4]]).getD 0 adDefault).jac = [[1, 0]] ∧
    (adPowInt ((initAdArrays [[3], [4]]).getD 0 adDefault) 2).val = [9] ∧
    (adPowInt ((initAdArrays [[3], [4]]).getD 0 adDefault) 2).jac = [[6, 0]] := by
  refine ⟨by decide, by decide, ?_, ?_⟩
  · show ([(3 : ℚ)].map (fun x => x ^ (2 : ℤ))) = [9]
    norm_num
  · show matMul (diagMat ([(3 : ℚ)].map (fun x => (2 : ℚ) * x ^ ((2 : ℤ) - 1)))) [[1, 0]]
        = [[6, 0]]
    norm_num [matMul, diagMat, matWidth, dotProd, colOf, Function.comp,
      List.range_succ, Finset.sum_range_succ, Finset.sum_range_zero]

/-- Row `i` of the Jacobian assembled by `maximum`. -/
theorem maximum_jac_row (vals0 vals1 : Vec) (jac0 jac1 : Mat) (i : ℕ)
    (h0 : i < vals0.length) (h1 : i < vals1.length)
    (hj0 : i < jac0.length) (hj1 : i < jac1.length) :
    ((List.zipWith (fun xy rr => (xy, rr)) (List.zipWith (fun x y => (x, y)) vals0 vals1)
        (List.zipWith (fun r0 r1 => (r0, r1)) jac0 jac1)).map
      (fun p => if p.1.1 ≤ p.1.2 then p.2.2 else p.2.1)).getD i []
    = if vals0.getD i 0 ≤ vals1.getD i 0 then jac1.getD i [] else jac0.getD i [] := by
  rw [List.getD_eq_getElem _ _ (by simp [h0, h1, hj0, hj1]), List.getElem_map,
    List.getElem_zipWith, List.getElem_zipWith, List.getElem_zipWith,
    List.getD_eq_getElem _ _ h0, List.getD_eq_getElem _ _ h1,
    List.getD_eq_getElem _ _ hj0, List.getD_eq_getElem _ _ hj1]

/-- C5: for `maximum(a, b)` with `a` an `Ad_array` and `b` an `Ad_array` or a
plain array of the same length, the value is the elementwise maximum, and for
every index where b's value is greater than or equal to a's value the
Jacobian row is b's row (an all-zero row when b is a plain array), otherwise
a's row. -/
theorem C5_maximum_tie_break (a : Ad_array) (n : ℕ)
    (hn : a.val.length = n) (hjn : a.jac.length = n) :
    (∀ (b : Ad_array), b.val.length = n → b.jac.length = n → ∀ i, i < n →
      (maximum a (.ad b)).val.getD i 0 = max (a.val.getD i 0) (b.val.getD i 0) ∧
      (maximum a (.ad b)).jac.getD i []
        = if a.val.getD i 0 ≤ b.val.getD i 0 then b.jac.getD i []
          else a.jac.getD i []) ∧
    (∀ (w : Vec), w.length = n → ∀ i, i < n →
      (maximum a (.arr w)).val.getD i 0 = max (a.val.getD i 0) (w.getD i 0) ∧
      (maximum a (.arr w)).jac.getD i []
        = if a.val.getD i 0 ≤ w.getD i 0 then List.replicate (matWidth a.jac) 0
          else a.jac.getD i []) := by
  constructor
  · intro b hbv hbj i hi
    constructor
    · rw [show (maximum a (.ad b)).val
          = List.zipWith (fun x y => if x ≤ y then y else x) a.val b.val from rfl,
        zipWith_getD _ _ _ _ (by omega) (by omega), max_def]
    · rw [show (maximum a (.ad b)).jac
          = (List.zipWith (fun xy rr => (xy, rr))
              (List.zipWith (fun x y => (x, y)) a.val b.val)
              (List.zipWith (fun r0 r1 => (r0, r1)) a.jac b.jac)).map
            (fun p => if p.1.1 ≤ p.1.2 then p.2.2 else p.2.1) from rfl,
        maximum_jac_row a.val b.val a.jac b.jac i (by omega) (by omega) (by omega)
          (by omega)]
  · intro w hw i hi
    constructor
    · rw [show (maximum a (.arr w)).val
          = List.zipWith (fun x y => if x ≤ y then y else x) a.val w from rfl,
        zipWith_getD _ _ _ _ (by omega) (by omega), max_def]
    · rw [show (maximum a (.arr w)).jac
          = (List.zipWith (fun xy rr => (xy, rr))
              (List.zipWith (fun x y => (x, y)) a.val w)
              (List.zipWith (fun r0 r1 => (r0, r1)) a.jac
                (zeroMat a.jac.length (matWidth a.jac)))).map
            (fun p => if p.1.1 ≤ p.1.2 then p.2.2 else p.2.1) from rfl,
        maximum_jac_row a.val w a.jac _ i (by omega) (by omega) (by omega)
          (by simp [zeroMat]; omega),
        zeroMat_getD_row _ _ _ (by omega)]

/-- Witness for C5, exercising the tie-break at an index with equal values. -/
theorem C5_maximum_tie_break_witness :
    (maximum ⟨[1, 5], [[1, 0], [0, 1]]⟩ (.ad ⟨[1, 3], [[2, 2], [3, 3]]⟩)).jac.getD 0 []
        = [2, 2] ∧
    (maximum ⟨[1, 5], [[1, 0], [0, 1]]⟩ (.ad ⟨[1, 3], [[2, 2], [3, 3]]⟩)).jac.getD 1 []
        = [0, 1] ∧
    (maximum ⟨[1, 5], [[1, 0], [0, 1]]⟩ (.arr [2, 4])).jac.getD 0 [] = [0, 0] := by
  have h := C5_maximum_tie_break ⟨[1, 5], [[1, 0], [0, 1]]⟩ 2 rfl rfl
  have hb := h.1 ⟨[1, 3], [[2, 2], [3, 3]]⟩ rfl rfl
  have hw := h.2 [2, 4] rfl
  refine ⟨?_, ?_, ?_⟩
  · rw [(hb 0 (by decide)).2]
    norm_num
  · rw [(hb 1 (by decide)).2]
    norm_num
  · rw [(hw 0 (by decide)).2]
    norm_num [matWidth, List.replicate]

/-- C9: every modelled `Ad_array` arithmetic operator (`__add__`, `__sub__`,
`__mul__`, `__neg__`) and elementary-function call (`abs`) leaves the value
and Jacobian of each operand unchanged and returns a result whose storage is
freshly allocated, never aliased with an operand's value or Jacobian. -/
theorem C9_operators_never_mutate_operands (h : Heap) (a b : AdRef)
    (ha : ValidRef h a) (hb : ValidRef h b) :
    FrameOk2 h a b (addH h a b) ∧ FrameOk2 h a b (subH h a b) ∧
    FrameOk2 h a b (mulH h a b) ∧ FrameOk1 h a (negH h a) ∧
    FrameOk1 h a (absH h a) :=
  ⟨frame_addH h a b ha hb, frame_subH h a b ha hb, frame_mulH h a b ha hb,
   frame_negH h a ha, frame_absH h a ha⟩

/-- Witness for C9 at a concrete heap and operands. -/
theorem C9_operators_never_mutate_operands_witness :
    ValidRef ⟨[[1, 2], [3, 4]], [[[1, 0]], [[0, 1]]]⟩ ⟨0, 0⟩ ∧
    ValidRef ⟨[[1, 2], [3, 4]], [[[1, 0]], [[0, 1]]]⟩ ⟨1, 1⟩ ∧
    FrameOk2 ⟨[[1, 2], [3, 4]], [[[1, 0]], [[0, 1]]]⟩ ⟨0, 0⟩ ⟨1, 1⟩
      (subH ⟨[[1, 2], [3, 4]], [[[1, 0]], [[0, 1]]]⟩ ⟨0, 0⟩ ⟨1, 1⟩) ∧
    FrameOk1 ⟨[[1, 2], [3, 4]], [[[1, 0]], [[0, 1]]]⟩ ⟨0, 0⟩
      (negH ⟨[[1, 2], [3, 4]], [[[1, 0]], [[0, 1]]]⟩ ⟨0, 0⟩) :=
  ⟨by decide, by decide,
   (C9_operators_never_mutate_operands _ ⟨0, 0⟩ ⟨1, 1⟩ (by decide) (by decide)).2.1,
   (C9_operators_never_mutate_operands _ ⟨0, 0⟩ ⟨1, 1⟩ (by decide) (by decide)).2.2.2.1⟩

/-- C7 counterexample: for an `Ad_array` whose Jacobian is an object array of
per-component matrices, `copy()` shares the component matrices with the
original: the copy's component reference list is the original's, and mutating
the copy's component matrix changes what the original's component reads. -/
theorem C7_counterexample :
    (copyArrH ⟨[[1]], [[[5]]]⟩ ⟨0, [0]⟩).2.jac = [0] ∧
    readMat (writeMat (copyArrH ⟨[[1]], [[[5]]]⟩ ⟨0, [0]⟩).1
        ((copyArrH ⟨[[1]], [[[5]]]⟩ ⟨0, [0]⟩).2.jac.getD 0 0) [[9]]) 0 = [[9]] ∧
    ([[9]] : Mat) ≠ [[5]] := by
  decide

/-- C7 (amended): `copy()` deep-copies the value and invokes the Jacobian's
own copy method (falling back to reusing the object when it lacks one); for a
single-matrix Jacobian the copy is an independent cell with equal contents,
but when the Jacobian is stored as an object array of per-component matrices
the copy's array holds the very same component references as the original. -/
theorem C7_copy_semantics (h : Heap) (a : AdRef) (aL : AdRefArr)
    (ha : ValidRef h a) (hv : aL.val < h.vecs.length) :
    (readVec (copyH h a).1 (copyH h a).2.val = readVec h a.val ∧
     readMat (copyH h a).1 (copyH h a).2.jac = readMat h a.jac ∧
     (copyH h a).2.val ≠ a.val ∧ (copyH h a).2.jac ≠ a.jac) ∧
    (readVec (copyArrH h aL).1 (copyArrH h aL).2.val = readVec h aL.val ∧
     (copyArrH h aL).2.val ≠ aL.val ∧
     (copyArrH h aL).2.jac = aL.jac) := by
  obtain ⟨ha1, ha2⟩ := ha
  simp only [copyH, copyArrH, allocVec, allocMat, readVec, readMat]
  refine ⟨⟨?_, ?_, ?_, ?_⟩, ?_, ?_, ?_⟩
  · exact getD_concat_self _ _ _
  · exact getD_concat_self _ _ _
  · omega
  · omega
  · exact getD_concat_self _ _ _
  · omega
  · trivial

/-- Witness for C7 (amended) at a concrete heap. -/
theorem C7_copy_semantics_witness :
    readMat (copyH ⟨[[1]], [[[5]]]⟩ ⟨0, 0⟩).1 (copyH ⟨[[1]], [[[5]]]⟩ ⟨0, 0⟩).2.jac
        = readMat ⟨[[1]], [[[5]]]⟩ 0 ∧
    (copyArrH ⟨[[1]], [[[5]]]⟩ ⟨0, [0]⟩).2.jac = [0] :=
  ⟨((C7_copy_semantics ⟨[[1]], [[[5]]]⟩ ⟨0, 0⟩ ⟨0, [0]⟩ (by decide) (by decide)).1).2.1,
   ((C7_copy_semantics ⟨[[1]], [[[5]]]⟩ ⟨0, 0⟩ ⟨0, [0]⟩ (by decide) (by decide)).2).2.2⟩

end PorePy
